import Mathlib

/-!
Shallow embedding of the archive-identification-and-extraction subsystem of
`lib/galaxy/datatypes/isa.py` (class `Isa`), together with theorems settling
the specification claims about it.

Conventions of the embedding:
* Python byte strings are `List Nat` (one entry per byte; the file is
  Python 2, where `str` is a byte string).
* Python text strings (archive member names, file names) are `List Char`.
* A seekable binary file handle is a `ByteStream`: its full contents plus the
  current read position; `read` and `seek` are explicit state passing.
* Code that raises is modelled with `Except String` (or an explicit error
  component); the string is the exception message.
* `zipfile`/`tarfile` member extraction and name listing are not
  re-implemented: the member-name lists and the scratch-directory contents
  they produce are taken as parameters, and only the surrounding logic of
  `isa.py` is embedded.
-/

/-- `ISA_ARCHIVE_NAME` of `isa.py`: the name of the ISA archive file as saved
inside Galaxy. -/
def ISA_ARCHIVE_NAME : List Char := ("archive").toList

/-- The byte-prefix table `_FILE_TYPE_PREFIX` of `isa.py`, in source order:
`\x1f\x8b\x08 -> "gz"`, `\x42\x5a\x68 -> "bz2"`, `\x50\x4b\x03\x04 -> "zip"`. -/
def fileTypeTable : List (List Nat × String) :=
  [([0x1f, 0x8b, 0x08], "gz"), ([0x42, 0x5a, 0x68], "bz2"), ([0x50, 0x4b, 0x03, 0x04], "zip")]

/-- `_MAX_LEN_FILE_TYPE_PREFIX` of `isa.py`: the length of the longest known
byte prefix, computed from the table. -/
def maxLenFileType : Nat := (fileTypeTable.map (fun e => e.1.length)).foldr max 0

/-- The matching step of `Isa._detect_file_type` on the bytes already read:
`_FILE_TYPE_REGEX.match(file_start)` matches, anchored at the start of
`file_start`, the alternation of the three escaped byte prefixes and the
matched text is then looked up in `_FILE_TYPE_PREFIX`.  Because the three
prefixes start with pairwise distinct bytes, at most one of them can match at
the start, so this equals: find the first table entry whose bytes are a prefix
of `file_start` and return its format string; `none` models Python `None`. -/
def detect_from_bytes (file_start : List Nat) : Option String :=
  (fileTypeTable.find? (fun e => e.1.isPrefixOf file_start)).map (fun e => e.2)

/-- A seekable binary stream: full contents plus current read position. -/
structure ByteStream where
  data : List Nat
  pos : Nat

/-- Python `stream.read(n)`: return up to `n` bytes starting at the current
position and advance the position by the number of bytes actually read. -/
def streamRead (s : ByteStream) (n : Nat) : List Nat × ByteStream :=
  let bytes := (s.data.drop s.pos).take n
  (bytes, { s with pos := s.pos + bytes.length })

/-- Python `stream.seek(n)`: set the read position to `n`. -/
def streamSeek (s : ByteStream) (n : Nat) : ByteStream :=
  { s with pos := n }

/-- `Isa._detect_file_type`: read `_MAX_LEN_FILE_TYPE_PREFIX` bytes from the
current position, `seek(0)`, and match the bytes against the prefix table.
Returns the detected type (with `none` for Python `None`) and the stream as it
is left by the call.  The function is total: it never raises. -/
def detect_file_type (s : ByteStream) : Option String × ByteStream :=
  let r := streamRead s maxLenFileType
  let s2 := streamSeek r.2 0
  (detect_from_bytes r.1, s2)

/-! ### Helper lemmas about byte-prefix detection -/

theorem maxLenFileType_eq : maxLenFileType = 4 := rfl

theorem prefix_take_four {p bs : List Nat} (h : p.length ≤ 4) :
    p <+: bs.take 4 ↔ p <+: bs := by
  constructor
  · exact fun hp => hp.trans (List.take_prefix 4 bs)
  · intro hp
    have he : p = bs.take p.length := List.prefix_iff_eq_take.mp hp
    have : p = (bs.take 4).take p.length := by
      rw [List.take_take, Nat.min_eq_left h]
      exact he
    exact this ▸ List.take_prefix p.length (bs.take 4)

theorem detect_from_bytes_gz {bs : List Nat} :
    detect_from_bytes (bs.take 4) = some "gz" ↔ [0x1f, 0x8b, 0x08] <+: bs := by
  rw [← prefix_take_four (by decide)]
  rw [← List.isPrefixOf_iff_prefix]
  simp only [detect_from_bytes, fileTypeTable, List.find?]
  by_cases h1 : List.isPrefixOf [0x1f, 0x8b, 0x08] (bs.take 4)
  · simp [h1]
  · simp only [h1, Bool.false_eq_true, iff_false]
    by_cases h2 : List.isPrefixOf [0x42, 0x5a, 0x68] (bs.take 4) <;>
      by_cases h3 : List.isPrefixOf [0x50, 0x4b, 0x03, 0x04] (bs.take 4) <;>
      simp [h2, h3]

theorem detect_from_bytes_bz2 {bs : List Nat} :
    detect_from_bytes (bs.take 4) = some "bz2" ↔ [0x42, 0x5a, 0x68] <+: bs := by
  rw [← prefix_take_four (by decide)]
  rw [← List.isPrefixOf_iff_prefix]
  simp only [detect_from_bytes, fileTypeTable, List.find?]
  by_cases h1 : List.isPrefixOf [0x1f, 0x8b, 0x08] (bs.take 4)
  · have : ¬ List.isPrefixOf [0x42, 0x5a, 0x68] (bs.take 4) := by
      intro h2
      rw [List.isPrefixOf_iff_prefix] at h1 h2
      rcases h1 with ⟨t1, e1⟩
      rcases h2 with ⟨t2, e2⟩
      rw [← e1] at e2
      exact absurd (List.head_eq_of_cons_eq e2) (by decide)
    simp [h1, this]
  · simp only [h1, Bool.false_eq_true]
    by_cases h2 : List.isPrefixOf [0x42, 0x5a, 0x68] (bs.take 4)
    · simp [h2]
    · by_cases h3 : List.isPrefixOf [0x50, 0x4b, 0x03, 0x04] (bs.take 4) <;> simp [h2, h3]

theorem detect_from_bytes_zip {bs : List Nat} :
    detect_from_bytes (bs.take 4) = some "zip" ↔ [0x50, 0x4b, 0x03, 0x04] <+: bs := by
  rw [← prefix_take_four (by decide)]
  rw [← List.isPrefixOf_iff_prefix]
  simp only [detect_from_bytes, fileTypeTable, List.find?]
  by_cases h3 : List.isPrefixOf [0x50, 0x4b, 0x03, 0x04] (bs.take 4)
  · have hne1 : ¬ List.isPrefixOf [0x1f, 0x8b, 0x08] (bs.take 4) := by
      intro h1
      rw [List.isPrefixOf_iff_prefix] at h1 h3
      rcases h1 with ⟨t1, e1⟩
      rcases h3 with ⟨t3, e3⟩
      rw [← e1] at e3
      exact absurd (List.head_eq_of_cons_eq e3) (by decide)
    have hne2 : ¬ List.isPrefixOf [0x42, 0x5a, 0x68] (bs.take 4) := by
      intro h2
      rw [List.isPrefixOf_iff_prefix] at h2 h3
      rcases h2 with ⟨t2, e2⟩
      rcases h3 with ⟨t3, e3⟩
      rw [← e2] at e3
      exact absurd (List.head_eq_of_cons_eq e3) (by decide)
    simp [h3, hne1, hne2]
  · by_cases h1 : List.isPrefixOf [0x1f, 0x8b, 0x08] (bs.take 4) <;>
      by_cases h2 : List.isPrefixOf [0x42, 0x5a, 0x68] (bs.take 4) <;>
      simp [h1, h2, h3]

theorem detect_from_bytes_none {bs : List Nat}
    (h1 : ¬ [0x1f, 0x8b, 0x08] <+: bs) (h2 : ¬ [0x42, 0x5a, 0x68] <+: bs)
    (h3 : ¬ [0x50, 0x4b, 0x03, 0x04] <+: bs) :
    detect_from_bytes (bs.take 4) = none := by
  rw [← prefix_take_four (by decide)] at h1 h2 h3
  rw [← List.isPrefixOf_iff_prefix] at h1 h2 h3
  simp only [detect_from_bytes, fileTypeTable, List.find?]
  simp [h1, h2, h3]

theorem detect_file_type_fst (s : ByteStream) :
    (detect_file_type s).1 = detect_from_bytes ((s.data.drop s.pos).take 4) := rfl

theorem detect_file_type_snd (s : ByteStream) :
    (detect_file_type s).2 = { data := s.data, pos := 0 } := rfl

/-! ### Claims C3, C6, C8: the format detector -/

/-- C3: for every byte stream, `_detect_file_type` returns `"gz"` exactly when
the stream contents start with bytes `1f 8b 08`, `"bz2"` exactly when they
start with `42 5a 68`, `"zip"` exactly when they start with `50 4b 03 04`, and
`None` for all byte strings starting with none of these three prefixes.  The
embedded function is total, so the call never raises. -/
theorem detect_format_prefix_table (bs : List Nat) :
    ((detect_file_type ⟨bs, 0⟩).1 = some "gz" ↔ [0x1f, 0x8b, 0x08] <+: bs) ∧
    ((detect_file_type ⟨bs, 0⟩).1 = some "bz2" ↔ [0x42, 0x5a, 0x68] <+: bs) ∧
    ((detect_file_type ⟨bs, 0⟩).1 = some "zip" ↔ [0x50, 0x4b, 0x03, 0x04] <+: bs) ∧
    (¬ [0x1f, 0x8b, 0x08] <+: bs → ¬ [0x42, 0x5a, 0x68] <+: bs →
      ¬ [0x50, 0x4b, 0x03, 0x04] <+: bs → (detect_file_type ⟨bs, 0⟩).1 = none) :=
  ⟨detect_from_bytes_gz, detect_from_bytes_bz2, detect_from_bytes_zip,
    fun h1 h2 h3 => detect_from_bytes_none h1 h2 h3⟩

/-- Witness for C3: a stream starting with none of the three prefixes is
detected as `None`. -/
theorem detect_format_prefix_table_witness :
    (detect_file_type ⟨[0, 1, 2, 3], 0⟩).1 = none :=
  (detect_format_prefix_table [0, 1, 2, 3]).2.2.2 (by decide) (by decide) (by decide)

/-- Counterexample to C6: for a one-byte stream whose read position is 1,
`_detect_file_type` leaves the position at 0 (because of `stream.seek(0)`),
not at the position the call began with. -/
theorem detect_format_position_counterexample :
    ((detect_file_type ⟨[0x00], 1⟩).2).pos = 0 ∧ ByteStream.pos ⟨[0x00], 1⟩ = 1 ∧
    ¬ ((detect_file_type ⟨[0x00], 1⟩).2).pos = ByteStream.pos ⟨[0x00], 1⟩ := by
  decide

/-- C6 amended: after `_detect_file_type` returns, the stream's read position
is 0 (the call ends with `stream.seek(0)`), and the stream contents are
unchanged; when the call began at offset 0 — as at every call site — the
stream is returned exactly as it was. -/
theorem detect_format_resets_to_start (s : ByteStream) :
    ((detect_file_type s).2).pos = 0 ∧ ((detect_file_type s).2).data = s.data ∧
    (s.pos = 0 → (detect_file_type s).2 = s) := by
  refine ⟨rfl, rfl, fun h => ?_⟩
  cases s with
  | mk d p =>
    have h' : p = 0 := h
    subst h'
    rfl

/-- Witness for C6 amended: on a stream at offset 0 the detector leaves the
stream untouched. -/
theorem detect_format_resets_to_start_witness :
    (detect_file_type ⟨[0x1f, 0x8b, 0x08], 0⟩).2 = ⟨[0x1f, 0x8b, 0x08], 0⟩ :=
  (detect_format_resets_to_start ⟨[0x1f, 0x8b, 0x08], 0⟩).2.2 rfl

/-- Counterexample to C8: on a stream whose read position is 1 over contents
`00 50 4b 03 04`, the first `_detect_file_type` call reads `50 4b 03 04` and
returns `"zip"`, then seeks to 0; the second call reads `00 50 4b 03` and
returns `None`.  Two consecutive calls on the same stream disagree. -/
theorem detect_format_twice_counterexample :
    (detect_file_type ⟨[0x00, 0x50, 0x4b, 0x03, 0x04], 1⟩).1 = some "zip" ∧
    (detect_file_type ((detect_file_type ⟨[0x00, 0x50, 0x4b, 0x03, 0x04], 1⟩).2)).1 = none ∧
    ¬ ((detect_file_type ((detect_file_type ⟨[0x00, 0x50, 0x4b, 0x03, 0x04], 1⟩).2)).1 =
        (detect_file_type ⟨[0x00, 0x50, 0x4b, 0x03, 0x04], 1⟩).1) := by
  decide

/-- C8 amended: when the stream is positioned at its start (offset 0, as at
every call site), two consecutive `_detect_file_type` calls yield the same
result; in general every call after the first detects from offset 0, so the
result is stable from the second call on. -/
theorem detect_format_twice_amended (s : ByteStream) :
    (s.pos = 0 → (detect_file_type ((detect_file_type s).2)).1 = (detect_file_type s).1) ∧
    (detect_file_type ((detect_file_type s).2)).1 = (detect_file_type ⟨s.data, 0⟩).1 := by
  constructor
  · intro h
    cases s with
    | mk d p =>
      have h' : p = 0 := h
      subst h'
      rfl
  · rfl

/-- Witness for C8 amended: on a gzip stream at offset 0 the two consecutive
calls agree. -/
theorem detect_format_twice_amended_witness :
    (detect_file_type ((detect_file_type ⟨[0x1f, 0x8b, 0x08], 0⟩).2)).1 =
      (detect_file_type ⟨[0x1f, 0x8b, 0x08], 0⟩).1 :=
  (detect_format_twice_amended ⟨[0x1f, 0x8b, 0x08], 0⟩).1 rfl

/-! ### The investigation-file locators -/

/-- A word character of the regex class `[\w]` under Python 2 defaults:
`[A-Za-z0-9_]`. -/
def isWordChar (c : Char) : Bool :=
  ('a' ≤ c && c ≤ 'z') || ('A' ≤ c && c ≤ 'Z') || ('0' ≤ c && c ≤ '9') || c == '_'

/-- Case-insensitive match of the regex characters `txt` against three
character values. -/
def txtCaseless (t1 t2 t3 : Char) : Bool :=
  (t1 == 't' || t1 == 'T') && (t2 == 'x' || t2 == 'X') && (t3 == 't' || t3 == 'T')

/-- `re.findall(r"^[i]_[\w]+\.txt", f, flags=re.IGNORECASE)` of
`Isa._find_isatab_investigation_filename`, returning the single possible match
(`^` without `re.MULTILINE` anchors at position 0 only, so `findall` yields at
most one match, and `match[0]` is the matched text).  The greedy `[\w]+` takes
the maximal run of word characters; since no word character can satisfy the
following `\.`, backtracking past that run can never succeed, so the regex
matches exactly when the maximal run is non-empty and is followed by `.` and a
case-insensitive `txt`.  The matched text — not the whole file name — is what
the source appends to its result list. -/
def reFindITab (f : List Char) : Option (List Char) :=
  match f with
  | c1 :: c2 :: rest =>
    if (c1 == 'i' || c1 == 'I') && c2 == '_' then
      let w := rest.takeWhile isWordChar
      if w.isEmpty then none
      else
        match rest.dropWhile isWordChar with
        | '.' :: t1 :: t2 :: t3 :: _ =>
          if txtCaseless t1 t2 t3 then some (c1 :: c2 :: (w ++ ['.', t1, t2, t3]))
          else none
        | _ => none
    else none
  | _ => none

/-- `Isa._find_isatab_investigation_filename`: collect the regex matches over
the member list; if there is exactly one, return it (the matched text), else
return `None` (zero matches, or the ambiguity case of more than one). -/
def find_isatab_investigation_filename (files_list : List (List Char)) : Option (List Char) :=
  let res := files_list.filterMap reFindITab
  if 0 < res.length then
    if res.length = 1 then res.head? else none
  else none

/-- Modelled from the claim's words: the tail `[\w]+\.txt` of the pattern,
matched against an entire character list — a non-empty run of word characters
followed by exactly `.txt` (case-insensitive) at the very end. -/
def wordRunDotTxt : List Char → Bool
  | [] => false
  | c :: rest =>
    isWordChar c &&
      ((match rest with
        | [d, t1, t2, t3] => d == '.' && txtCaseless t1 t2 t3
        | _ => false) ||
       wordRunDotTxt rest)

/-- Modelled from the claim's words: full, both-ends-anchored, case-insensitive
match of `^i_[A-Za-z0-9_]+\.txt$` against an entire file name. -/
def isFullTabMatch : List Char → Bool
  | c1 :: c2 :: rest => (c1 == 'i' || c1 == 'I') && c2 == '_' && wordRunDotTxt rest
  | _ => false

/-- A name is a candidate of the source's start-anchored regex exactly when
some prefix of it fully matches the pattern. -/
def tabStartMatch (f : List Char) : Bool :=
  (List.range (f.length + 1)).any (fun k => isFullTabMatch (f.take k))

/-- `str.endswith(".json")` of `Isa._find_isajson_json_filename`. -/
def endsWithJson (f : List Char) : Bool :=
  (".json").toList.isSuffixOf f

/-- `Isa._find_isajson_json_filename`: keep the member names ending in
`.json`; if there is exactly one, return it, else return `None`. -/
def find_isajson_json_filename (files_list : List (List Char)) : Option (List Char) :=
  let res := files_list.filter endsWithJson
  if 0 < res.length then
    if res.length = 1 then res.head? else none
  else none

/-! ### Helper lemmas for the Tab locator -/

theorem wordRunDotTxt_append {w : List Char} {t1 t2 t3 : Char}
    (hw : ∀ c ∈ w, isWordChar c = true) (hne : w ≠ [])
    (ht : txtCaseless t1 t2 t3 = true) :
    wordRunDotTxt (w ++ ['.', t1, t2, t3]) = true := by
  induction w with
  | nil => exact absurd rfl hne
  | cons c w' ih =>
    simp only [List.cons_append, wordRunDotTxt, Bool.and_eq_true, Bool.or_eq_true]
    refine ⟨hw c (by simp), ?_⟩
    cases w' with
    | nil => exact Or.inl (by simp [ht])
    | cons d w'' =>
      exact Or.inr (ih (fun e he => hw e (by simp [he])) (by simp))

theorem wordRunDotTxt_decomp {l : List Char} (h : wordRunDotTxt l = true) :
    ∃ w t1 t2 t3, l = w ++ ['.', t1, t2, t3] ∧ w ≠ [] ∧
      (∀ c ∈ w, isWordChar c = true) ∧ txtCaseless t1 t2 t3 = true := by
  induction l with
  | nil => simp [wordRunDotTxt] at h
  | cons c rest ih =>
    simp only [wordRunDotTxt, Bool.and_eq_true, Bool.or_eq_true] at h
    obtain ⟨hc, hrest⟩ := h
    rcases hrest with hdot | hrec
    · match rest, hdot with
      | [d, t1, t2, t3], hdot =>
        simp only [Bool.and_eq_true, beq_iff_eq] at hdot
        refine ⟨[c], t1, t2, t3, ?_, by simp, ?_, hdot.2⟩
        · simp [hdot.1]
        · intro e he
          simp only [List.mem_singleton] at he
          exact he ▸ hc
    · obtain ⟨w, t1, t2, t3, heq, hne, hw, ht⟩ := ih hrec
      refine ⟨c :: w, t1, t2, t3, by simp [heq], by simp, ?_, ht⟩
      intro e he
      rcases List.mem_cons.mp he with he | he
      · exact he ▸ hc
      · exact hw e he

theorem takeWhile_word_append {w tail : List Char} (hw : ∀ c ∈ w, isWordChar c = true) :
    (w ++ '.' :: tail).takeWhile isWordChar = w ∧
    (w ++ '.' :: tail).dropWhile isWordChar = '.' :: tail := by
  induction w with
  | nil =>
    constructor <;> simp [List.takeWhile_cons, List.dropWhile_cons, isWordChar]
  | cons c w' ih =>
    have hc : isWordChar c = true := hw c (by simp)
    have ih' := ih (fun e he => hw e (by simp [he]))
    constructor
    · simp [List.takeWhile_cons, hc, ih'.1]
    · simp [List.dropWhile_cons, hc, ih'.2]

theorem reFindITab_sound {f p : List Char} (h : reFindITab f = some p) :
    p <+: f ∧ isFullTabMatch p = true := by
  match f with
  | [] => simp [reFindITab] at h
  | [c1] => simp [reFindITab] at h
  | c1 :: c2 :: rest =>
    simp only [reFindITab] at h
    by_cases hg : ((c1 == 'i' || c1 == 'I') && c2 == '_') = true
    case neg => simp [hg] at h
    simp only [hg, if_true] at h
    by_cases hemp : (rest.takeWhile isWordChar).isEmpty = true
    case pos => simp [hemp] at h
    simp only [hemp, Bool.false_eq_true, if_false] at h
    split at h
    next t1 t2 t3 tail heq =>
      by_cases ht : txtCaseless t1 t2 t3 = true
      case neg => simp [ht] at h
      simp only [ht, if_true, Option.some.injEq] at h
      subst h
      have hrest : rest = rest.takeWhile isWordChar ++ '.' :: t1 :: t2 :: t3 :: tail := by
        conv_lhs => rw [← List.takeWhile_append_dropWhile isWordChar rest]
        rw [heq]
      have hw : ∀ c ∈ rest.takeWhile isWordChar, isWordChar c = true :=
        fun c hc => List.mem_takeWhile_imp hc
      constructor
      · refine ⟨tail, ?_⟩
        simp only [List.cons_append, List.append_assoc, List.nil_append]
        rw [← hrest]
      · simp only [isFullTabMatch, Bool.and_eq_true]
        refine ⟨by simpa [Bool.and_eq_true] using hg, ?_⟩
        refine wordRunDotTxt_append hw ?_ ht
        simpa [List.isEmpty_iff] using hemp
    next x heq =>
      exact absurd h (by simp)

theorem reFindITab_complete {f l : List Char} (hpre : l <+: f) (hm : isFullTabMatch l = true) :
    (reFindITab f).isSome = true := by
  cases l with
  | nil => simp [isFullTabMatch] at hm
  | cons c1 l' =>
    cases l' with
    | nil => simp [isFullTabMatch] at hm
    | cons c2 rest' =>
      simp only [isFullTabMatch, Bool.and_eq_true] at hm
      obtain ⟨hg, hrun⟩ := hm
      obtain ⟨w, t1, t2, t3, heq, hne, hw, ht⟩ := wordRunDotTxt_decomp hrun
      obtain ⟨t, hf⟩ := hpre
      subst heq
      have hf' : f = c1 :: c2 :: (w ++ '.' :: t1 :: t2 :: t3 :: t) := by
        rw [← hf]
        simp
      subst hf'
      have htw := @takeWhile_word_append w (t1 :: t2 :: t3 :: t) hw
      simp only [reFindITab, Bool.and_eq_true]
      simp only [hg.1, hg.2, Bool.and_self, if_true, htw.1, htw.2]
      simp [List.isEmpty_iff, hne, ht]

theorem reFindITab_isSome_iff (f : List Char) :
    (reFindITab f).isSome = tabStartMatch f := by
  by_cases h : (reFindITab f).isSome = true
  · rw [h]
    obtain ⟨p, hp⟩ := Option.isSome_iff_exists.mp h
    obtain ⟨hpre, hfull⟩ := reFindITab_sound hp
    have hlen : p.length ≤ f.length := hpre.length_le
    symm
    simp only [tabStartMatch, List.any_eq_true]
    refine ⟨p.length, by simp [List.mem_range]; omega, ?_⟩
    rw [← List.prefix_iff_eq_take.mp hpre]
    exact hfull
  · rw [Bool.not_eq_true] at h
    rw [h]
    symm
    rw [Bool.eq_false_iff]
    intro habs
    simp only [tabStartMatch, List.any_eq_true] at habs
    obtain ⟨k, _, hk⟩ := habs
    have := reFindITab_complete (List.take_prefix k f) hk
    rw [h] at this
    exact absurd this (by decide)

theorem filterMap_reFindITab_length (fs : List (List Char)) :
    (fs.filterMap reFindITab).length = (fs.filter (fun f => tabStartMatch f)).length := by
  induction fs with
  | nil => rfl
  | cons g fs' ih =>
    by_cases hg : (reFindITab g).isSome = true
    · obtain ⟨p, hp⟩ := Option.isSome_iff_exists.mp hg
      have hm : tabStartMatch g = true := by rw [← reFindITab_isSome_iff]; exact hg
      simp [List.filterMap_cons, List.filter_cons, hp, hm, ih]
    · have hn : reFindITab g = none := Option.not_isSome_iff_eq_none.mp hg
      have hm : tabStartMatch g = false := by
        rw [← reFindITab_isSome_iff, hn]
        rfl
      simp [List.filterMap_cons, List.filter_cons, hn, hm, ih]

theorem filterMap_reFindITab_single {fs : List (List Char)} {f : List Char}
    (h : fs.filter (fun g => tabStartMatch g) = [f]) :
    ∃ p, reFindITab f = some p ∧ fs.filterMap reFindITab = [p] := by
  induction fs with
  | nil => simp at h
  | cons g fs' ih =>
    by_cases hg : tabStartMatch g = true
    · rw [List.filter_cons_of_pos hg] at h
      have hgf : g = f := by
        have := List.head_eq_of_cons_eq h
        exact this
      have htail : fs'.filter (fun g => tabStartMatch g) = [] := List.tail_eq_of_cons_eq h
      have hsome : (reFindITab f).isSome = true := by
        rw [reFindITab_isSome_iff, ← hgf]
        exact hg
      obtain ⟨p, hp⟩ := Option.isSome_iff_exists.mp hsome
      refine ⟨p, hp, ?_⟩
      have hzero : (fs'.filterMap reFindITab).length = 0 := by
        rw [filterMap_reFindITab_length, htail]
        rfl
      rw [List.filterMap_cons, hgf, hp, List.length_eq_zero.mp hzero]
    · rw [List.filter_cons_of_neg (by simpa using hg)] at h
      obtain ⟨p, hp, hmap⟩ := ih h
      have hn : reFindITab g = none := by
        apply Option.not_isSome_iff_eq_none.mp
        rw [reFindITab_isSome_iff]
        simpa using hg
      exact ⟨p, hp, by rw [List.filterMap_cons, hn, hmap]⟩

/-! ### Claims C1, C7: the investigation-file locators -/

/-- Counterexample to C1: for the Tab-kind member list `["i_a.txtz"]`, zero
members match the claim's full pattern `^i_[A-Za-z0-9_]+\.txt$` (the single
member fails it), yet `_find_isatab_investigation_filename` does not return
"not found": the source regex has no end anchor, so `i_a.txtz` is a candidate
and the matched text `i_a.txt` — not even a member of the list — is
returned. -/
theorem isatab_locator_counterexample :
    isFullTabMatch (("i_a.txtz").toList) = false ∧
    find_isatab_investigation_filename [("i_a.txtz").toList] = some (("i_a.txt").toList) ∧
    ¬ find_isatab_investigation_filename [("i_a.txtz").toList] = none := by
  refine ⟨by decide, by decide, by decide⟩

/-- C1 amended: for the Tab dataset kind, a member is a candidate exactly when
some prefix of its name matches `i_[A-Za-z0-9_]+\.txt` case-insensitively (the
source pattern is anchored at the start only, with no end anchor).  When
exactly one member is a candidate, the locator returns the matched text: a
prefix of that member fully matching the pattern (equal to the member itself
whenever the member matches the full anchored pattern).  When zero members are
candidates, and also when more than one are, it returns "not found" (`None`)
without raising — ambiguity degrades to absent. -/
theorem isatab_locator_amended (fs : List (List Char)) :
    (∀ f, fs.filter (fun g => tabStartMatch g) = [f] →
       ∃ p, find_isatab_investigation_filename fs = some p ∧ p <+: f ∧
         isFullTabMatch p = true) ∧
    ((fs.filter (fun g => tabStartMatch g)).length ≠ 1 →
       find_isatab_investigation_filename fs = none) := by
  constructor
  · intro f hf
    obtain ⟨p, hp, hmap⟩ := filterMap_reFindITab_single hf
    obtain ⟨hpre, hfull⟩ := reFindITab_sound hp
    refine ⟨p, ?_, hpre, hfull⟩
    simp only [find_isatab_investigation_filename, hmap]
    rfl
  · intro hne
    have hL := filterMap_reFindITab_length fs
    simp only [find_isatab_investigation_filename]
    by_cases h0 : (fs.filterMap reFindITab).length = 0
    · simp [h0]
    · have h1 : ¬ (fs.filterMap reFindITab).length = 1 := by
        rw [hL]
        exact hne
      simp [Nat.pos_of_ne_zero h0, h1]

/-- Witness for C1 amended, on the spec's own examples: for the Tab-kind
member list `["i_inv.txt", "s_study.txt", "readme.md"]` the locator returns
`"i_inv.txt"`; for `["i_inv.txt", "i_other.txt"]` it returns "not found". -/
theorem isatab_locator_amended_witness :
    (∃ p, find_isatab_investigation_filename
        [("i_inv.txt").toList, ("s_study.txt").toList, ("readme.md").toList] = some p ∧
        p <+: ("i_inv.txt").toList ∧ isFullTabMatch p = true) ∧
    find_isatab_investigation_filename [("i_inv.txt").toList, ("i_other.txt").toList] = none :=
  ⟨(isatab_locator_amended _).1 (("i_inv.txt").toList) (by decide),
   (isatab_locator_amended _).2 (by decide)⟩

/-- C7: for the Json dataset kind, a member name is kept exactly when it ends
in `.json`; `_find_isajson_json_filename` returns the unique such member when
exactly one exists, and `None` ("not found") when zero members end in `.json`
(including the empty list) and also when more than one do. -/
theorem isajson_locator (fs : List (List Char)) :
    (∀ f, endsWithJson f = true ↔ ∃ s, f = s ++ (".json").toList) ∧
    (∀ f, fs.filter endsWithJson = [f] → find_isajson_json_filename fs = some f) ∧
    ((fs.filter endsWithJson).length ≠ 1 → find_isajson_json_filename fs = none) := by
  refine ⟨?_, ?_, ?_⟩
  · intro f
    rw [endsWithJson, List.isSuffixOf_iff_suffix]
    constructor
    · intro ⟨s, hs⟩
      exact ⟨s, hs.symm⟩
    · intro ⟨s, hs⟩
      exact ⟨s, hs.symm⟩
  · intro f hf
    simp only [find_isajson_json_filename, hf]
    rfl
  · intro hne
    simp only [find_isajson_json_filename]
    by_cases h0 : (fs.filter endsWithJson).length = 0
    · simp [h0]
    · simp [Nat.pos_of_ne_zero h0, hne]

/-- Witness for C7, on the spec's own examples: for the Json-kind member list
`["study.json"]` the locator returns `"study.json"`; for `[]` it returns
"not found". -/
theorem isajson_locator_witness :
    find_isajson_json_filename [("study.json").toList] = some (("study.json").toList) ∧
    find_isajson_json_filename [] = none :=
  ⟨(isajson_locator _).2.1 (("study.json").toList) (by decide),
   (isajson_locator []).2.2 (by decide)⟩

/-! ### Claim C2: member-list post-processing (root stripping) -/

/-- Python `s.replace(pattern, "")` for a non-empty pattern `b :: bp`: scan
left to right, delete every (leftmost, non-overlapping) occurrence of the
pattern, and continue after each deleted occurrence.  `fuel` bounds the number
of scan steps; every step consumes at least one character, so `fuel =
s.length` (as used by `replaceAll`) never runs out. -/
def replaceAllFuel (b : Char) (bp : List Char) : Nat → List Char → List Char
  | _, [] => []
  | 0, s => s
  | fuel + 1, c :: rest =>
    if (b :: bp).isPrefixOf (c :: rest) then replaceAllFuel b bp fuel (rest.drop bp.length)
    else c :: replaceAllFuel b bp fuel rest

/-- Python `s.replace(b :: bp, "")`. -/
def replaceAll (b : Char) (bp : List Char) (s : List Char) : List Char :=
  replaceAllFuel b bp s.length s

/-- The candidate top-level segment `files_list[0].split("/")[0]` examined by
`Isa._list_archive_files` (empty when the member list is empty): the characters
of the first entry before its first `/`. -/
def basePathOf (files_list : List (List Char)) : List Char :=
  match files_list with
  | [] => []
  | f0 :: _ => f0.takeWhile (fun c => c != '/')

/-- The post-processing step of `Isa._list_archive_files` ("filter the base
path if it exists"): when the list is non-empty and the first entry's segment
before the first `/` is non-empty, remove the bare segment from the list if
literally present (the TAR encoding), remove the segment followed by `/` if
literally present (the ZIP encoding, `os.path.join(base_path, '')`), and then
apply `f.replace(base_path, '')` — with `base_path` now carrying the trailing
`/` — to every remaining entry. -/
def strip_base_path (files_list : List (List Char)) : List (List Char) :=
  match basePathOf files_list with
  | [] => files_list
  | b :: bt =>
    let l1 := files_list.erase (b :: bt)
    let l2 := l1.erase ((b :: bt) ++ ['/'])
    l2.map (fun f => replaceAll b (bt ++ ['/']) f)

/-- Modelled from the spec: stripping a leading prefix occurrence only. -/
def stripLeading (p f : List Char) : List Char :=
  if p.isPrefixOf f then f.drop p.length else f

/-- Modelled from the spec: the claim's description of the post-processing, in
which the common prefix is "stripped from every remaining entry" — read as
removing the leading occurrence of the prefix from each entry, rather than
every occurrence. -/
def strip_base_path_spec (files_list : List (List Char)) : List (List Char) :=
  match basePathOf files_list with
  | [] => files_list
  | b :: bt =>
    let l1 := files_list.erase (b :: bt)
    let l2 := l1.erase ((b :: bt) ++ ['/'])
    l2.map (fun f => stripLeading ((b :: bt) ++ ['/']) f)

/-- `p` occurs as a contiguous substring of `s`. -/
def containsSub (p : List Char) : List Char → Bool
  | [] => p.isEmpty
  | c :: rest => p.isPrefixOf (c :: rest) || containsSub p rest

/-- `p` occurs in `f` at most as the leading prefix: either it is a prefix of
`f` and does not occur again in the remainder, or it does not occur in `f` at
all. -/
def atMostLeading (p f : List Char) : Bool :=
  if p.isPrefixOf f then !containsSub p (f.drop p.length) else !containsSub p f

theorem replaceAllFuel_of_not_contains {b : Char} {bp : List Char} (fuel : Nat)
    {s : List Char} (h : containsSub (b :: bp) s = false) :
    replaceAllFuel b bp fuel s = s := by
  induction fuel generalizing s with
  | zero =>
    cases s with
    | nil => rfl
    | cons c rest => rfl
  | succ fuel ih =>
    cases s with
    | nil => rfl
    | cons c rest =>
      simp only [containsSub, Bool.or_eq_false_iff] at h
      rw [replaceAllFuel]
      rw [if_neg (by simp [h.1])]
      rw [ih h.2]

theorem replaceAll_atMostLeading {b : Char} {bp f : List Char}
    (h : atMostLeading (b :: bp) f = true) :
    replaceAll b bp f = stripLeading (b :: bp) f := by
  unfold atMostLeading at h
  by_cases hp : (b :: bp).isPrefixOf f
  · rw [if_pos hp, Bool.not_eq_true'] at h
    obtain ⟨r, hr⟩ := List.isPrefixOf_iff_prefix.mp hp
    subst hr
    have hdrop : ((b :: bp) ++ r).drop (b :: bp).length = r := List.drop_left (b :: bp) r
    rw [hdrop] at h
    unfold stripLeading
    rw [if_pos hp, hdrop]
    unfold replaceAll
    have hlen : ((b :: bp) ++ r).length = bp.length + r.length + 1 := by
      simp only [List.length_append, List.length_cons]
      omega
    rw [hlen]
    show replaceAllFuel b bp (bp.length + r.length + 1) (b :: (bp ++ r)) = r
    rw [replaceAllFuel]
    simp only [← List.cons_append]
    rw [if_pos hp]
    rw [List.drop_left bp r]
    exact replaceAllFuel_of_not_contains _ h
  · rw [if_neg hp, Bool.not_eq_true'] at h
    unfold stripLeading
    rw [if_neg hp]
    exact replaceAllFuel_of_not_contains _ h

/-- Counterexample to C2: for the member list `["dir/dir/f.txt"]`, stripping
the leading prefix `dir/` (as the claim describes) would give
`["dir/f.txt"]`, but `_list_archive_files` applies
`f.replace(base_path, '')`, which deletes every occurrence, so the code
returns `["f.txt"]`. -/
theorem list_members_strip_counterexample :
    strip_base_path [("dir/dir/f.txt").toList] = [("f.txt").toList] ∧
    strip_base_path_spec [("dir/dir/f.txt").toList] = [("dir/f.txt").toList] ∧
    ¬ strip_base_path [("dir/dir/f.txt").toList] = [("dir/f.txt").toList] := by
  refine ⟨by decide, by decide, by decide⟩

/-- C2 amended: when the member list is non-empty and the first entry has a
non-empty segment before the first `/`, the post-processing removes the bare
segment entry and the segment-with-`/` entry when they appear literally in the
list, and deletes every occurrence of segment-plus-`/` from each remaining
entry (a global substring replacement, not only the leading occurrence);
whenever the prefix occurs in an entry at most as its leading prefix, this
coincides with the claim's leading-prefix stripping, and in particular a zip
with members `root/a.txt`, `root/sub/b.txt` yields `["a.txt", "sub/b.txt"]`
whether or not `root/` is encoded as a distinct entry. -/
theorem list_members_strip_amended (fs : List (List Char))
    (h : ∀ f ∈ fs, atMostLeading (basePathOf fs ++ ['/']) f = true) :
    strip_base_path fs = strip_base_path_spec fs := by
  unfold strip_base_path strip_base_path_spec
  cases hb : basePathOf fs with
  | nil => rfl
  | cons b bt =>
    apply List.map_congr_left
    intro f hf
    have hf1 : f ∈ fs.erase (b :: bt) :=
      (List.erase_sublist ((b :: bt) ++ ['/']) (fs.erase (b :: bt))).subset hf
    have hf2 : f ∈ fs := (List.erase_sublist (b :: bt) fs).subset hf1
    have ham := h f hf2
    rw [hb] at ham
    have : (b :: bt) ++ ['/'] = b :: (bt ++ ['/']) := rfl
    rw [this] at ham
    exact replaceAll_atMostLeading ham

/-- Witness for C2 amended: the spec's own example.  With members
`root/a.txt` and `root/sub/b.txt` the code's post-processing agrees with the
leading-prefix reading and yields `["a.txt", "sub/b.txt"]`, with and without a
distinct `root/` entry. -/
theorem list_members_strip_amended_witness :
    strip_base_path [("root/a.txt").toList, ("root/sub/b.txt").toList] =
      strip_base_path_spec [("root/a.txt").toList, ("root/sub/b.txt").toList] ∧
    strip_base_path [("root/a.txt").toList, ("root/sub/b.txt").toList] =
      [("a.txt").toList, ("sub/b.txt").toList] ∧
    strip_base_path [("root/").toList, ("root/a.txt").toList, ("root/sub/b.txt").toList] =
      [("a.txt").toList, ("sub/b.txt").toList] :=
  ⟨list_members_strip_amended _ (by decide), by decide, by decide⟩

/-! ### The extractor: scratch-directory handling -/

/-- An entry of a directory listing: a regular file or a sub-directory with
its own immediate children. -/
inductive FSEntry where
  | file (name : List Char)
  | dir (name : List Char) (children : List FSEntry)

/-- The name of a directory entry. -/
def entryName : FSEntry → List Char
  | .file n => n
  | .dir n _ => n

/-- The filter of `Isa._move_to_target_path`:
`not f.startswith(".") and f not in (ISA_ARCHIVE_NAME, "__MACOSX")`. -/
def isVisibleName (n : List Char) : Bool :=
  !(match n with | '.' :: _ => true | _ => false) &&
    !(n == ISA_ARCHIVE_NAME) && !(n == ("__MACOSX").toList)

/-- `tmp_subfolders` of `Isa._move_to_target_path`: the visible children of
the scratch directory. -/
def visibleEntries (l : List FSEntry) : List FSEntry :=
  l.filter (fun e => isVisibleName (entryName e))

/-- `Isa._move_to_target_path` with `delete_temp_folder=True` (the only call
mode): compute the visible children of the scratch directory, then evaluate
`root_folder = os.path.join(temp_folder, tmp_subfolders[0])` — which raises
`IndexError` when there are no visible children; if there is exactly one
visible child and it is a directory, move that directory's children (all of
them, unfiltered) into the target; if there are several visible children,
move each of them into the target; if the single visible child is a regular
file, move nothing.  On every non-raising path the scratch directory is then
deleted (`shutil.rmtree`).  The result is the target directory's new contents
(entries are appended to `target`), or the exception message. -/
def move_to_target_path (tempChildren target : List FSEntry) :
    Except String (List FSEntry) :=
  match visibleEntries tempChildren with
  | [] => Except.error "IndexError: list index out of range"
  | first :: rest =>
    if rest.isEmpty then
      match first with
      | .dir _ children => Except.ok (target ++ children)
      | .file _ => Except.ok target
    else Except.ok (target ++ first :: rest)

/-- `Isa._extract_archive` with an explicit `output_path`: detect the archive
type from the stream (positioned at its start); for `"zip"`/`"gz"` the
archive is decompressed by `zipfile`/`tarfile` into a fresh scratch directory
(whose resulting listing is the parameter `zipTemp` resp. `tarTemp`, since
the decompressors themselves are outside the embedding) and the scratch
contents are moved to the output path; any other detected type — `"bz2"` or
`None` — raises `Exception("Not supported archive format!!!")` before
touching the output path.  The result pairs the final contents of the output
directory with the exception message, if one was raised. -/
def extract_archive (content : List Nat) (zipTemp tarTemp : List FSEntry)
    (output : List FSEntry) : List FSEntry × Option String :=
  match detect_from_bytes (content.take 4) with
  | some t =>
    if t = "zip" then
      match move_to_target_path zipTemp output with
      | Except.ok moved => (moved, none)
      | Except.error e => (output, some e)
    else if t = "gz" then
      match move_to_target_path tarTemp output with
      | Except.ok moved => (moved, none)
      | Except.error e => (output, some e)
    else (output, some "Not supported archive format!!!")
  | none => (output, some "Not supported archive format!!!")

/-! ### Claims C4, C5, C9: extraction -/

/-- C4: for every archive whose detected format is `None` (unknown) or
`"bz2"`, `_extract_archive` raises the unsupported-archive-format exception
and the destination directory's contents are exactly what they were before
the call — nothing is written. -/
theorem extract_unsupported_format (content : List Nat) (zipTemp tarTemp output : List FSEntry)
    (h : detect_from_bytes (content.take 4) = some "bz2" ∨
         detect_from_bytes (content.take 4) = none) :
    extract_archive content zipTemp tarTemp output =
      (output, some "Not supported archive format!!!") := by
  rcases h with h | h <;> simp [extract_archive, h]

/-- Witness for C4: a bzip2 archive (leading bytes `42 5a 68`) is rejected
with the destination untouched. -/
theorem extract_unsupported_format_witness :
    extract_archive [0x42, 0x5a, 0x68, 0x39] [] [] [FSEntry.file (("kept.txt").toList)] =
      ([FSEntry.file (("kept.txt").toList)], some "Not supported archive format!!!") :=
  extract_unsupported_format [0x42, 0x5a, 0x68, 0x39] [] [] [FSEntry.file (("kept.txt").toList)]
    (Or.inl (by decide))

/-- C5 (the claim is the spec's intent; the code deviates): when the scratch
directory has zero visible children, `Isa._move_to_target_path` does not
complete without raising — the unconditional
`root_folder = os.path.join(temp_folder, tmp_subfolders[0])` indexes the
empty filtered list and raises `IndexError` before the guarded branches are
reached.  The theorem evaluates the embedded code on such inputs. -/
theorem move_empty_raises (temp target : List FSEntry)
    (h : visibleEntries temp = []) :
    move_to_target_path temp target = Except.error "IndexError: list index out of range" := by
  unfold move_to_target_path
  rw [h]

/-- Witness for C5: a scratch directory containing only a hidden entry (zero
visible children) makes the move step raise `IndexError`. -/
theorem move_empty_raises_witness :
    move_to_target_path [FSEntry.file ((".hidden").toList)] [] =
      Except.error "IndexError: list index out of range" :=
  move_empty_raises [FSEntry.file ((".hidden").toList)] [] rfl

/-- C9: when the scratch directory has exactly one visible child and that
child is a regular file, `_move_to_target_path` moves nothing (the
`len == 1 and os.path.isdir(...)` branch fails on a file and the `len > 1`
branch does not apply), then deletes the scratch directory: the destination
is left unchanged, the extracted file is silently discarded, and no error is
raised. -/
theorem move_single_file_discards (temp target : List FSEntry) (n : List Char)
    (h : visibleEntries temp = [FSEntry.file n]) :
    move_to_target_path temp target = Except.ok target := by
  unfold move_to_target_path
  rw [h]
  rfl

/-- Witness for C9: a scratch directory holding one visible regular file
(plus a hidden macOS metadata entry, which is filtered out) leaves the
destination exactly as it was, with no error. -/
theorem move_single_file_discards_witness :
    move_to_target_path
        [FSEntry.file (("i_solo.txt").toList), FSEntry.dir (("__MACOSX").toList) []]
        [FSEntry.file (("old.txt").toList)] =
      Except.ok [FSEntry.file (("old.txt").toList)] :=
  move_single_file_discards _ _ (("i_solo.txt").toList) rfl

/-! ### Claim C10: the sniffer -/

/-- `Isa._list_archive_files`: detect the archive type from the stream
(positioned at its start); for `"zip"` take the zip `namelist()`, for `"gz"`
take the tar member names (both listings are parameters of the embedding, as
the decompressors are external); any other detected type — `"bz2"` or `None`
— raises `Exception("Not supported archive format!!!")`.  The raw name list
is then passed through the base-path stripping post-processing. -/
def list_archive_files (content : List Nat) (zipNames tarNames : List (List Char)) :
    Except String (List (List Char)) :=
  match detect_from_bytes (content.take 4) with
  | some t =>
    if t = "zip" then Except.ok (strip_base_path zipNames)
    else if t = "gz" then Except.ok (strip_base_path tarNames)
    else Except.error "Not supported archive format!!!"
  | none => Except.error "Not supported archive format!!!"

/-- `Isa.sniff`: open the file, list the members of the archive, and return
`True` iff an ISA-Tab investigation file or an ISA-Json JSON file is found
among them.  The member-listing step's exception, when raised, propagates —
`sniff` has no handler. -/
def sniff (content : List Nat) (zipNames tarNames : List (List Char)) :
    Except String Bool :=
  match list_archive_files content zipNames tarNames with
  | Except.error e => Except.error e
  | Except.ok files_list =>
    if (find_isatab_investigation_filename files_list).isSome ||
        (find_isajson_json_filename files_list).isSome then Except.ok true
    else Except.ok false

/-- C10: for every file whose leading bytes match neither the zip prefix
`50 4b 03 04` nor the gzip prefix `1f 8b 08` — bzip2 files included —
`sniff` propagates the unsupported-archive-format exception raised by the
member-listing step instead of returning a boolean; and whenever `sniff`
does return a boolean, the input was a zip or gzip file. -/
theorem sniff_propagates_unsupported (content : List Nat)
    (zipNames tarNames : List (List Char)) :
    (¬ [0x1f, 0x8b, 0x08] <+: content → ¬ [0x50, 0x4b, 0x03, 0x04] <+: content →
      sniff content zipNames tarNames = Except.error "Not supported archive format!!!") ∧
    (∀ b, sniff content zipNames tarNames = Except.ok b →
      [0x1f, 0x8b, 0x08] <+: content ∨ [0x50, 0x4b, 0x03, 0x04] <+: content) := by
  constructor
  · intro hgz hzip
    by_cases hbz : [0x42, 0x5a, 0x68] <+: content
    · have hd : detect_from_bytes (content.take 4) = some "bz2" :=
        detect_from_bytes_bz2.mpr hbz
      simp [sniff, list_archive_files, hd]
    · have hd : detect_from_bytes (content.take 4) = none :=
        detect_from_bytes_none hgz hbz hzip
      simp [sniff, list_archive_files, hd]
  · intro b hb
    by_cases hgz : [0x1f, 0x8b, 0x08] <+: content
    · exact Or.inl hgz
    · by_cases hzip : [0x50, 0x4b, 0x03, 0x04] <+: content
      · exact Or.inr hzip
      · by_cases hbz : [0x42, 0x5a, 0x68] <+: content
        · have hd : detect_from_bytes (content.take 4) = some "bz2" :=
            detect_from_bytes_bz2.mpr hbz
          simp [sniff, list_archive_files, hd] at hb
        · have hd : detect_from_bytes (content.take 4) = none :=
            detect_from_bytes_none hgz hbz hzip
          simp [sniff, list_archive_files, hd] at hb

/-- Witness for C10: on a bzip2 file (leading bytes `42 5a 68`), `sniff`
raises rather than returning a boolean. -/
theorem sniff_propagates_unsupported_witness :
    sniff [0x42, 0x5a, 0x68, 0x39] [] [] = Except.error "Not supported archive format!!!" :=
  (sniff_propagates_unsupported [0x42, 0x5a, 0x68, 0x39] [] []).1 (by decide) (by decide)
